import Mathlib

/-!
Verification of the Qa_Bot Flask application (src/app.py).

Strings are embedded as `List Char`. Python's `str.strip`, `str.splitlines`,
`str.replace`, the regex substitutions of `clean_markdown`, and the route
handlers are translated into executable Lean functions. External services
(the Ollama model endpoint, sqlite, PyPDFLoader / FAISS, tesseract, gTTS)
are modelled by explicit outcome parameters: each route handler becomes a
pure function of the request data and of the outcomes of its library calls.
-/

namespace QaBot

/-- The backtick character (code point 96), written via `Char.ofNat`. -/
def btick : Char := Char.ofNat 96

/-- Python whitespace (`str.isspace`, which is also the set matched by the
regex class backslash-s for `str` patterns): ASCII whitespace, the C1/Unicode
space characters, and the file/group/record/unit separators `\x1c`-`\x1f`. -/
def isPySpace (c : Char) : Bool :=
  c == ' ' || c == '\t' || c == '\n' || c == '\x0d' || c == '\x0b' || c == '\x0c' ||
  c == '\x1c' || c == '\x1d' || c == '\x1e' || c == '\x1f' ||
  c == '\x85' || c == '\xa0' || c == ' ' ||
  (' ' ≤ c && c ≤ ' ') ||
  c == ' ' || c == ' ' || c == ' ' || c == ' ' || c == '　'

/-- The line boundaries recognised by Python's `str.splitlines`
(besides the two-character boundary `\r\n`, handled separately). -/
def isLineBreak (c : Char) : Bool :=
  c == '\n' || c == '\x0d' || c == '\x0b' || c == '\x0c' ||
  c == '\x1c' || c == '\x1d' || c == '\x1e' ||
  c == '\x85' || c == ' ' || c == ' '

/-- The bullet glyphs of the character class in `clean_markdown`'s
line-start regex: hyphen, asterisk, and the bullet variants
U+2022, U+25CF, U+25E6, U+2043. -/
def isBullet (c : Char) : Bool :=
  c == '-' || c == '*' || c == '•' || c == '●' || c == '◦' || c == '⁃'

/-- `str.strip()` of the leading edge only: drop leading whitespace. -/
def pyStripLead (l : List Char) : List Char := l.dropWhile isPySpace

/-- `str.strip()` of the trailing edge only: drop trailing whitespace. -/
def pyStripTrail (l : List Char) : List Char :=
  ((l.reverse).dropWhile isPySpace).reverse

/-- Python `str.strip()`: remove leading and trailing whitespace. -/
def pyStrip (l : List Char) : List Char := pyStripTrail (pyStripLead l)

/-- Does the list start with three backticks (a code fence)? -/
def isFenceStart (l : List Char) : Bool :=
  match l with
  | a :: b :: c :: _ => a == btick && b == btick && c == btick
  | _ => false

/-- Scan for the next occurrence of three consecutive backticks; on success
return the remainder of the list after that closing fence. -/
def findCloseFence : List Char → Option (List Char)
  | [] => none
  | c :: cs => if isFenceStart (c :: cs) then some (cs.drop 2) else findCloseFence cs

/-- Fuel-driven body of the code-fence removal
(`re.sub` of a lazily matched fenced block with the empty string): at each
position, if an opening fence starts here and a closing fence occurs later,
drop the whole block and continue after it; otherwise keep the character.
Fuel `l.length` suffices because every step consumes at least one character. -/
def removeCodeFencesF : Nat → List Char → List Char
  | 0, l => l
  | _ + 1, [] => []
  | fuel + 1, c :: cs =>
    if isFenceStart (c :: cs) then
      match findCloseFence (cs.drop 2) with
      | some rest => removeCodeFencesF fuel rest
      | none => c :: removeCodeFencesF fuel cs
    else c :: removeCodeFencesF fuel cs

/-- First regex substitution of `clean_markdown`: remove fenced code blocks. -/
def removeCodeFences (l : List Char) : List Char := removeCodeFencesF l.length l

/-- Try to match the image pattern (bang, bracketed alt text without a
closing bracket inside, parenthesised url) at the head of the list;
on success return the alt text and the remainder after the match. -/
def matchImage : List Char → Option (List Char × List Char)
  | a :: b :: cs =>
    if a = '!' ∧ b = '[' then
      match cs.dropWhile (fun c => c != ']') with
      | _ :: r2 :: cs2 =>
        if r2 = '(' then
          match cs2.dropWhile (fun c => c != ')') with
          | _ :: rest => some (cs.takeWhile (fun c => c != ']'), rest)
          | [] => none
        else none
      | _ => none
    else none
  | _ => none

/-- Fuel-driven global substitution of image markdown by its alt text. -/
def substImagesF : Nat → List Char → List Char
  | 0, l => l
  | _ + 1, [] => []
  | fuel + 1, c :: cs =>
    match matchImage (c :: cs) with
    | some (alt, rest) => alt ++ substImagesF fuel rest
    | none => c :: substImagesF fuel cs

/-- Second regex substitution of `clean_markdown`: images become alt text. -/
def substImages (l : List Char) : List Char := substImagesF l.length l

/-- Try to match the link pattern (bracketed non-empty text, parenthesised
non-empty url) at the head of the list; on success return the link text
and the remainder after the match. -/
def matchLink : List Char → Option (List Char × List Char)
  | a :: cs =>
    if a = '[' then
      let txt := cs.takeWhile (fun c => c != ']')
      if txt = [] then none
      else
        match cs.dropWhile (fun c => c != ']') with
        | _ :: r2 :: cs2 =>
          if r2 = '(' then
            let url := cs2.takeWhile (fun c => c != ')')
            if url = [] then none
            else
              match cs2.dropWhile (fun c => c != ')') with
              | _ :: rest => some (txt, rest)
              | [] => none
          else none
        | _ => none
    else none
  | [] => none

/-- Fuel-driven global substitution of link markdown by its link text. -/
def substLinksF : Nat → List Char → List Char
  | 0, l => l
  | _ + 1, [] => []
  | fuel + 1, c :: cs =>
    match matchLink (c :: cs) with
    | some (txt, rest) => txt ++ substLinksF fuel rest
    | none => c :: substLinksF fuel cs

/-- Third regex substitution of `clean_markdown`: links become link text. -/
def substLinks (l : List Char) : List Char := substLinksF l.length l

/-- Python `str.replace(ab, "")` for a two-character pattern: remove every
non-overlapping occurrence of the pair `a`, `b`, scanning left to right. -/
def replacePair (a b : Char) : List Char → List Char
  | [] => []
  | [x] => [x]
  | x :: y :: rest =>
    if x = a ∧ y = b then replacePair a b rest
    else x :: replacePair a b (y :: rest)

/-- Python `str.replace(c, "")` for a single character: drop every occurrence. -/
def removeChar (c : Char) (l : List Char) : List Char :=
  l.filter (fun x => x != c)

/-- Normalise the two-character boundary `\r\n` to a single newline,
scanning left to right; afterwards every line boundary is one character,
so `str.splitlines()` factors through this pass. -/
def replaceCrLf : List Char → List Char
  | [] => []
  | [x] => [x]
  | x :: y :: rest =>
    if x = '\x0d' ∧ y = '\n' then '\n' :: replaceCrLf rest
    else x :: replaceCrLf (y :: rest)

/-- Prepend a character to the first line of an already-split tail. -/
def consHead (c : Char) : List (List Char) → List (List Char)
  | [] => [[c]]
  | line :: more => (c :: line) :: more

/-- Split at every single-character line boundary, with no trailing empty
line for a trailing boundary. -/
def splitlinesSimple : List Char → List (List Char)
  | [] => []
  | c :: cs =>
    if isLineBreak c then [] :: splitlinesSimple cs
    else consHead c (splitlinesSimple cs)

/-- Python `str.splitlines()`: normalise `\r\n` to `\n`, then split at
every line-boundary character. -/
def splitlines (l : List Char) : List (List Char) :=
  splitlinesSimple (replaceCrLf l)

/-- The per-line regex substitution of `clean_markdown`: strip one leading
run of whitespace, a single bullet glyph, and the following run of
whitespace (the regex requires at least one whitespace after the bullet). -/
def stripBullet (line : List Char) : List Char :=
  match line.dropWhile isPySpace with
  | b :: d :: rest =>
    if isBullet b && isPySpace d then (d :: rest).dropWhile isPySpace else line
  | _ => line

/-- Python `"\n".join`: interleave a newline between the lines. -/
def joinNL : List (List Char) → List Char
  | [] => []
  | x :: xs =>
    match xs with
    | [] => x
    | _ :: _ => x ++ '\n' :: joinNL xs

/-- Fuel-driven body of the blank-line collapsing regex substitution: every
maximal run of at least three newlines becomes exactly two newlines.
Fuel `l.length` suffices because every step consumes at least one character. -/
def collapseNLF : Nat → List Char → List Char
  | 0, l => l
  | _ + 1, [] => []
  | fuel + 1, c :: cs =>
    if c = '\n' then
      let run := 1 + (cs.takeWhile (fun x => x == '\n')).length
      (if 3 ≤ run then ['\n', '\n'] else List.replicate run '\n')
        ++ collapseNLF fuel (cs.dropWhile (fun x => x == '\n'))
    else
      c :: collapseNLF fuel cs

/-- Last regex substitution of `clean_markdown`: collapse three or more
consecutive newlines to exactly two. -/
def collapseNL (l : List Char) : List Char := collapseNLF l.length l

/-- The `clean_markdown` helper defined inside the `/api/ask` handler:
remove code fences; images to alt text; links to link text; remove the
bold/italic/code markers (the pairs of asterisks and of underscores, then
every backtick, asterisk and underscore); strip one leading bullet per
line; collapse runs of three or more newlines to two; strip the ends. -/
def clean_markdown (md : List Char) : List Char :=
  if md = [] then []
  else
    let t1 := removeCodeFences md
    let t2 := substImages t1
    let t3 := substLinks t2
    let t4 := removeChar '_' (removeChar '*' (removeChar btick
                (replacePair '_' '_' (replacePair '*' '*' t3))))
    let t5 := joinNL ((splitlines t4).map stripBullet)
    pyStrip (collapseNL t5)

/-! ### The model client (`QABot.ask_ollama`) and the `/api/ask` route -/

/-- One row of the `questions` table: owning user, question text, answer
text, creation timestamp (the autoincrement id is irrelevant here). -/
structure QuestionRow where
  user_id : Nat
  question : List Char
  answer : List Char
  timestamp : Nat
  deriving DecidableEq, Repr

/-- Outcome of the HTTP call to the model endpoint inside `ask_ollama`:
either some step (`requests.post`, `raise_for_status`, `.json()`) raises,
or the decoded JSON object is obtained, whose `response` field may be
present (a string) or absent. -/
inductive ModelOutcome where
  | transportFailure
  | success (response : Option (List Char))
  deriving DecidableEq, Repr

/-- The fixed sentinel returned by `ask_ollama` on any transport or
decoding failure. -/
def sentinelAnswer : List Char := "Sorry, something went wrong with the model.".data

/-- The default used when the JSON object has no `response` field. -/
def noResponseDefault : List Char := "No response received.".data

/-- `QABot.ask_ollama`: on transport/decoding failure, return the sentinel
(the exception is caught, never re-raised). On success the answer is the
`response` field (or the default); then, if a logged-in user identity is
available, a row is inserted into `questions` — an insert failure
(`persistOk = false`) is caught and swallowed, and the answer is returned
either way. Returns (answer, new table state). -/
def ask_ollama (outcome : ModelOutcome) (persistOk : Bool) (uid : Option Nat)
    (question : List Char) (db : List QuestionRow) (now : Nat) :
    List Char × List QuestionRow :=
  match outcome with
  | .transportFailure => (sentinelAnswer, db)
  | .success resp =>
    let answer := resp.getD noResponseDefault
    match uid with
    | some u =>
      if persistOk then (answer, db ++ [⟨u, question, answer, now⟩]) else (answer, db)
    | none => (answer, db)

/-- The JSON response of `/api/ask`: HTTP status plus the fields that can
occur in the body. -/
structure AskResponse where
  status : Nat
  heading : Option (List Char)
  body : Option (List Char)
  message : Option (List Char)
  deriving DecidableEq, Repr

/-- The `/api/ask` handler: read the `question` field (default empty) and
strip it; read the `lang` field (default `"en"`, never used afterwards);
reject an empty question with 400; otherwise call `ask_ollama`, build the
heading from the text before the first question mark (falling back to
`"Answer"`), clean the answer body, and return 200.
Result: (response, questions table afterwards, whether the model was called). -/
def askRoute (questionField langField : Option (List Char)) (outcome : ModelOutcome)
    (persistOk : Bool) (uid : Option Nat) (db : List QuestionRow) (now : Nat) :
    AskResponse × List QuestionRow × Bool :=
  let question := pyStrip (questionField.getD [])
  let _lang := langField.getD ("en".data)
  if question = [] then
    (⟨400, none, none, some ("No question provided.".data)⟩, db, false)
  else
    let r := ask_ollama outcome persistOk uid question db now
    let pre := pyStrip (question.takeWhile (fun c => c != '?'))
    let heading := if pre = [] then "Answer".data else pre
    let body := clean_markdown (pyStrip r.1)
    (⟨200, some heading, some body, none⟩, r.2, true)

/-- The heading exactly as the specification words it: the substring of the
question before its first question mark, trimmed, when the question contains
one; the whole trimmed question when it does not; and the literal `"Answer"`
when that substring is empty. -/
def headingSpec (q : List Char) : List Char :=
  let pre := if '?' ∈ q then pyStrip (q.takeWhile (fun c => c != '?')) else pyStrip q
  if pre = [] then "Answer".data else pre

/-! ### The `/history` route -/

/-- One row of the `users` table. -/
structure UserRow where
  id : Nat
  username : List Char
  deriving DecidableEq, Repr

/-- A row of the privileged listing: username, question, answer, timestamp. -/
abbrev AdminRow := List Char × List Char × List Char × Nat

/-- A row of a user's own listing: question, answer, timestamp. -/
abbrev OwnRow := List Char × List Char × Nat

/-- Descending-timestamp ordering on privileged rows (`ORDER BY ... DESC`). -/
def tsDescA (a b : AdminRow) : Prop := b.2.2.2 ≤ a.2.2.2

instance : DecidableRel tsDescA := fun a b => Nat.decLe b.2.2.2 a.2.2.2

instance : IsTotal AdminRow tsDescA := ⟨fun a b => Nat.le_total b.2.2.2 a.2.2.2⟩

instance : IsTrans AdminRow tsDescA :=
  ⟨fun _ _ _ hab hbc => Nat.le_trans hbc hab⟩

/-- Descending-timestamp ordering on own rows (`ORDER BY ... DESC`). -/
def tsDescU (a b : OwnRow) : Prop := b.2.2 ≤ a.2.2

instance : DecidableRel tsDescU := fun a b => Nat.decLe b.2.2 a.2.2

instance : IsTotal OwnRow tsDescU := ⟨fun a b => Nat.le_total b.2.2 a.2.2⟩

instance : IsTrans OwnRow tsDescU :=
  ⟨fun _ _ _ hab hbc => Nat.le_trans hbc hab⟩

/-- The unsorted result set of the privileged query: `questions` inner-joined
with `users` on the owning user id. -/
def adminRows (users : List UserRow) (qs : List QuestionRow) : List AdminRow :=
  qs.flatMap (fun q =>
    (users.filter (fun u => u.id == q.user_id)).map
      (fun u => (u.username, q.question, q.answer, q.timestamp)))

/-- The unsorted result set of the non-privileged query: the caller's own
rows of `questions`. -/
def ownRows (qs : List QuestionRow) (callerId : Nat) : List OwnRow :=
  (qs.filter (fun q => q.user_id == callerId)).map
    (fun q => (q.question, q.answer, q.timestamp))

/-- The rendered history data: the privileged shape carries usernames. -/
inductive HistoryPage where
  | adminView (rows : List AdminRow)
  | userView (rows : List OwnRow)
  deriving DecidableEq, Repr

/-- The `/history` handler: the caller is privileged exactly when their
handle is the hardcoded name `admin`; privileged callers get every record
joined with user handles, others get only their own records; both result
sets are ordered by descending timestamp. -/
def history (users : List UserRow) (qs : List QuestionRow)
    (callerId : Nat) (callerName : List Char) : HistoryPage :=
  if callerName = "admin".data then
    .adminView (List.insertionSort tsDescA (adminRows users qs))
  else
    .userView (List.insertionSort tsDescU (ownRows qs callerId))

/-- Does `needle` occur at the very start of `hay`? -/
def leadsWith : List Char → List Char → Bool
  | [], _ => true
  | _ :: _, [] => false
  | a :: as, b :: bs => a == b && leadsWith as bs

/-- Does `needle` occur as a contiguous substring of `hay`? -/
def occursIn (needle : List Char) : List Char → Bool
  | [] => leadsWith needle []
  | l@(_ :: t) => leadsWith needle l || occursIn needle t

/-- Strict descent of the timestamps of a row list, as the specification's
"strictly descending" reads. -/
def strictDescBy (ts : α → Nat) : List α → Bool
  | a :: b :: rest => decide (ts b < ts a) && strictDescBy ts (b :: rest)
  | _ => true

/-! ### `/api/upload_pdf`, the per-user index store, `/api/ocr`, `/api/tts` -/

/-- What a route handler hands back to the client: a 200 JSON payload, a
JSON error body with a status, or — when an exception escapes the handler —
an unhandled fault (Flask's generic 500 page, not a JSON body). -/
inductive RouteResult (α : Type) where
  | ok (payload : α)
  | jsonError (status : Nat) (message : List Char)
  | unhandled (exnMessage : List Char)
  deriving DecidableEq, Repr

/-- `true` iff the handler produced a JSON response (success or error)
rather than letting an exception escape. -/
def handledToJson : RouteResult α → Bool
  | .unhandled _ => false
  | _ => true

/-- Python dict assignment `store[k] = v` on the insertion-ordered pair
list modelling `PDF_VECTORSTORES`: overwrite the value at the key's
binding in place, else append the new binding at the end. -/
def dictSet : List (Nat × α) → Nat → α → List (Nat × α)
  | [], k, v => [(k, v)]
  | p :: ps, k, v => if p.1 = k then (k, v) :: ps else p :: dictSet ps k v

/-- Python dict lookup `store.get(k)`. -/
def dictGet (store : List (Nat × α)) (k : Nat) : Option α :=
  (store.find? (fun p => p.1 == k)).map (fun p => p.2)

/-- The `/api/upload_pdf` handler. A vector store is modelled by the list
of text chunks it indexes. The handler body is one `try` block: a missing
`pdf` field gives 400; a loader failure gives a JSON 500; an empty document
list gives 400; an embedding/indexing failure gives a JSON 500; on success
the splitter's chunks for the new document replace the caller's entry in
`PDF_VECTORSTORES` outright. Returns (route result, store afterwards). -/
def upload_pdf (store : List (Nat × List (List Char))) (uid : Nat)
    (pdfFieldPresent : Bool)
    (loadResult : Except (List Char) (List (List Char)))
    (splitChunks : List (List Char) → List (List Char))
    (embedResult : Except (List Char) Unit) :
    RouteResult (List Char) × List (Nat × List (List Char)) :=
  if !pdfFieldPresent then (.jsonError 400 ("No PDF uploaded".data), store)
  else
    match loadResult with
    | .error e => (.jsonError 500 e, store)
    | .ok docs =>
      if docs = [] then (.jsonError 400 ("PDF is empty or cannot be read".data), store)
      else
        match embedResult with
        | .error e => (.jsonError 500 e, store)
        | .ok _ =>
          (.ok ("PDF uploaded and processed successfully.".data),
           dictSet store uid (splitChunks docs))

/-- The `/api/ocr` handler. A missing `image` field gives 400. Crucially,
`Image.open` runs before the `try` block, so a file that cannot be decoded
as an image raises out of the handler (`unhandled`); only the tesseract
call itself is inside the `try`, whose failure gives a JSON 500 echoing the
exception message, and whose success returns the stripped extracted text. -/
def ocr_question (imageFieldPresent : Bool)
    (decodeResult : Except (List Char) Unit)
    (ocrResult : Except (List Char) (List Char)) : RouteResult (List Char) :=
  if !imageFieldPresent then .jsonError 400 ("No image file uploaded.".data)
  else
    match decodeResult with
    | .error e => .unhandled e
    | .ok _ =>
      match ocrResult with
      | .ok text => .ok (pyStrip text)
      | .error e => .jsonError 500 e

/-- The `speak` helper: any exception from synthesis (gTTS construction or
`tts.save`) is caught and turns the result into `false`; success is `true`.
The playback commands use `os.system`, which reports failure through an
exit code and never raises. -/
def speak (synthesisResult : Except (List Char) Unit) : Bool :=
  match synthesisResult with
  | .ok _ => true
  | .error _ => false

/-- The JSON response of `/api/tts`. -/
structure TtsResponse where
  status : Nat
  body_status : Option (List Char)
  audio_url : Option (List Char)
  answer : Option (List Char)
  error : Option (List Char)
  deriving DecidableEq, Repr

/-- The `/api/tts` handler: empty text gives 400; if `speak` succeeds the
response carries the fixed audio path and echoes the text; if it fails the
response is a 500 whose error body is the fixed string `"TTS failed"`. -/
def text_to_speech (textField langField : Option (List Char))
    (synthesisResult : Except (List Char) Unit) : TtsResponse :=
  let text := textField.getD []
  let _lang := langField.getD ("en".data)
  if text = [] then ⟨400, none, none, none, some ("No text provided".data)⟩
  else if speak synthesisResult then
    ⟨200, some ("ok".data), some ("/output.mp3".data), some text, none⟩
  else ⟨500, none, none, none, some ("TTS failed".data)⟩

/-! ### Auxiliary notions for the idempotence analysis of `clean_markdown` -/

/-- Does the list begin with three consecutive newlines? -/
def startsNlNlNl : List Char → Bool
  | a :: b :: c :: _ => a == '\n' && b == '\n' && c == '\n'
  | _ => false

/-- Does the list contain three consecutive newlines anywhere? -/
def hasTripleNL : List Char → Bool
  | [] => false
  | l@(_ :: cs) => startsNlNlNl l || hasTripleNL cs

/-- Remove one trailing newline if present: the net effect of
`splitlines` followed by `join` on a string whose only line boundaries
are plain newlines. -/
def stripTrailNL (l : List Char) : List Char :=
  if l.getLast? = some '\n' then l.dropLast else l

/-- A character on which some step of `clean_markdown` can act: the
emphasis/code markers, the link/image opener, the bullet glyphs, and
every line boundary other than a plain newline. -/
def mdActive (c : Char) : Bool :=
  c == btick || c == '*' || c == '_' || c == '[' || isBullet c ||
  (isLineBreak c && !(c == '\n'))

/-- A string none of whose characters is markdown-active. -/
def tameB (l : List Char) : Bool := l.all (fun c => !(mdActive c))

/-! ### Generic list lemmas -/

theorem tw_all {α : Type} {p : α → Bool} {l : List α}
    (h : ∀ c ∈ l, p c = true) : l.takeWhile p = l := by
  induction l with
  | nil => rfl
  | cons a t ih =>
    simp only [List.takeWhile_cons, h a (List.mem_cons_self a t), if_true]
    exact congrArg (a :: ·) (ih fun c hc => h c (List.mem_cons_of_mem a hc))

theorem tw_sat {α : Type} {p : α → Bool} {l : List α} {c : α}
    (h : c ∈ l.takeWhile p) : p c = true := by
  induction l with
  | nil => simp at h
  | cons a t ih =>
    rw [List.takeWhile_cons] at h
    by_cases hpa : p a = true
    · rw [if_pos hpa] at h
      rcases List.mem_cons.mp h with h1 | h2
      · rwa [h1]
      · exact ih h2
    · rw [if_neg (by simpa using hpa)] at h
      simp at h

theorem mem_tw {α : Type} {p : α → Bool} {l : List α} {c : α}
    (h : c ∈ l.takeWhile p) : c ∈ l := by
  induction l with
  | nil => simp at h
  | cons a t ih =>
    rw [List.takeWhile_cons] at h
    by_cases hpa : p a = true
    · rw [if_pos hpa] at h
      rcases List.mem_cons.mp h with h1 | h2
      · exact h1 ▸ List.mem_cons_self a t
      · exact List.mem_cons_of_mem a (ih h2)
    · rw [if_neg (by simpa using hpa)] at h
      simp at h

theorem mem_dw {α : Type} {p : α → Bool} {l : List α} {c : α}
    (h : c ∈ l.dropWhile p) : c ∈ l := by
  induction l with
  | nil => simp at h
  | cons a t ih =>
    rw [List.dropWhile_cons] at h
    by_cases hpa : p a = true
    · rw [if_pos hpa] at h
      exact List.mem_cons_of_mem a (ih h)
    · rw [if_neg (by simpa using hpa)] at h
      exact h

theorem dw_length_le {α : Type} {p : α → Bool} (l : List α) :
    (l.dropWhile p).length ≤ l.length := by
  induction l with
  | nil => exact Nat.le_refl 0
  | cons a t ih =>
    rw [List.dropWhile_cons]
    by_cases hpa : p a = true
    · rw [if_pos hpa]
      exact Nat.le_trans ih (by simp)
    · rw [if_neg (by simpa using hpa)]

theorem dw_append_left {α : Type} {p : α → Bool} {w x : List α}
    (h : ∀ c ∈ w, p c = true) : (w ++ x).dropWhile p = x.dropWhile p := by
  induction w with
  | nil => rfl
  | cons a t ih =>
    rw [List.cons_append, List.dropWhile_cons, if_pos (h a (List.mem_cons_self a t))]
    exact ih fun c hc => h c (List.mem_cons_of_mem a hc)

theorem tw_append_left {α : Type} {p : α → Bool} {w x : List α}
    (h : ∀ c ∈ w, p c = true) : (w ++ x).takeWhile p = w ++ x.takeWhile p := by
  induction w with
  | nil => rfl
  | cons a t ih =>
    rw [List.cons_append, List.takeWhile_cons, if_pos (h a (List.mem_cons_self a t)),
      List.cons_append]
    exact congrArg (a :: ·) (ih fun c hc => h c (List.mem_cons_of_mem a hc))

theorem tw_append_stop {α : Type} {p : α → Bool} {l t : List α}
    (h : l.takeWhile p ≠ l) : (l ++ t).takeWhile p = l.takeWhile p := by
  induction l with
  | nil => exact absurd rfl h
  | cons a s ih =>
    rw [List.cons_append, List.takeWhile_cons, List.takeWhile_cons]
    by_cases hpa : p a = true
    · rw [if_pos hpa, if_pos hpa]
      rw [List.takeWhile_cons, if_pos hpa] at h
      exact congrArg (a :: ·) (ih fun he => h (congrArg (a :: ·) he))
    · rw [if_neg (by simpa using hpa), if_neg (by simpa using hpa)]

theorem dw_append_ne {α : Type} {p : α → Bool} {l t : List α}
    (h : l.dropWhile p ≠ []) : (l ++ t).dropWhile p = l.dropWhile p ++ t := by
  induction l with
  | nil => exact absurd rfl h
  | cons a s ih =>
    rw [List.cons_append, List.dropWhile_cons, List.dropWhile_cons]
    by_cases hpa : p a = true
    · rw [if_pos hpa, if_pos hpa]
      rw [List.dropWhile_cons, if_pos hpa] at h
      exact ih h
    · rw [if_neg (by simpa using hpa), if_neg (by simpa using hpa), List.cons_append]

theorem dw_head_false {α : Type} {p : α → Bool} {l : List α} {c : α}
    (h : (l.dropWhile p).head? = some c) : p c = false := by
  induction l with
  | nil => simp at h
  | cons a t ih =>
    rw [List.dropWhile_cons] at h
    by_cases hpa : p a = true
    · rw [if_pos hpa] at h
      exact ih h
    · rw [if_neg (by simpa using hpa)] at h
      simp only [List.head?_cons, Option.some.injEq] at h
      subst h
      simpa using hpa

theorem dw_eq_self {α : Type} {p : α → Bool} {l : List α}
    (h : ∀ c, l.head? = some c → p c = false) : l.dropWhile p = l := by
  cases l with
  | nil => rfl
  | cons a t => rw [List.dropWhile_cons, if_neg (by simp [h a rfl])]

theorem headq_append {α : Type} {a b : List α} (h : a ≠ []) :
    (a ++ b).head? = a.head? := by
  cases a with
  | nil => exact absurd rfl h
  | cons x t => rfl

/-! ### Lemmas about `pyStrip` -/

theorem pyStripTrail_decomp (l : List Char) :
    ∃ t, (∀ c ∈ t, isPySpace c = true) ∧ l = pyStripTrail l ++ t := by
  refine ⟨(l.reverse.takeWhile isPySpace).reverse, ?_, ?_⟩
  · intro c hc
    exact tw_sat (List.mem_reverse.mp hc)
  · conv_lhs => rw [← l.reverse_reverse,
      ← List.takeWhile_append_dropWhile (p := isPySpace) (l := l.reverse)]
    rw [List.reverse_append]
    rfl

theorem pyStripTrail_append_ws {x t : List Char}
    (h : ∀ c ∈ t, isPySpace c = true) : pyStripTrail (x ++ t) = pyStripTrail x := by
  unfold pyStripTrail
  rw [List.reverse_append, dw_append_left fun c hc => h c (List.mem_reverse.mp hc)]

theorem pyStrip_append_left_ws {w x : List Char}
    (h : ∀ c ∈ w, isPySpace c = true) : pyStrip (w ++ x) = pyStrip x := by
  unfold pyStrip pyStripLead
  rw [dw_append_left h]

theorem pyStrip_append_right_ws {x t : List Char}
    (h : ∀ c ∈ t, isPySpace c = true) : pyStrip (x ++ t) = pyStrip x := by
  unfold pyStrip pyStripLead
  by_cases hx : x.dropWhile isPySpace = []
  · have hxall : ∀ c ∈ x, isPySpace c = true := by
      intro c hc
      exact List.dropWhile_eq_nil_iff.mp hx c hc
    rw [dw_append_left hxall, hx]
    have : t.dropWhile isPySpace = [] := List.dropWhile_eq_nil_iff.mpr fun c hc => h c hc
    rw [this]
  · rw [dw_append_ne hx, pyStripTrail_append_ws h]

theorem pyStrip_getLast_false {l : List Char} {c : Char}
    (h : (pyStrip l).getLast? = some c) : isPySpace c = false := by
  rw [← List.head?_reverse] at h
  unfold pyStrip pyStripTrail at h
  rw [List.reverse_reverse] at h
  exact dw_head_false h

theorem pyStrip_head_false {l : List Char} {c : Char}
    (h : (pyStrip l).head? = some c) : isPySpace c = false := by
  unfold pyStrip at h
  obtain ⟨t, _, hdec⟩ := pyStripTrail_decomp (pyStripLead l)
  by_cases hnil : pyStripTrail (pyStripLead l) = []
  · rw [hnil] at h
    simp at h
  · have : (pyStripLead l).head? = some c := by
      rw [hdec, headq_append hnil, h]
    exact dw_head_false this

theorem pyStrip_idem (l : List Char) : pyStrip (pyStrip l) = pyStrip l := by
  have h1 : pyStripLead (pyStrip l) = pyStrip l :=
    dw_eq_self fun c hc => pyStrip_head_false hc
  show pyStripTrail (pyStripLead (pyStrip l)) = pyStrip l
  rw [h1]
  show pyStripTrail (pyStripTrail (pyStripLead l)) = pyStripTrail (pyStripLead l)
  unfold pyStripTrail
  rw [List.reverse_reverse]
  rw [dw_eq_self fun c hc => dw_head_false hc]

theorem mem_pyStrip {l : List Char} {c : Char} (h : c ∈ pyStrip l) : c ∈ l := by
  unfold pyStrip pyStripTrail pyStripLead at h
  exact mem_dw (List.mem_reverse.mp (mem_dw (List.mem_reverse.mp h)))

/-- Stripping commutes (up to a final strip) with truncation at the first
character failing `p`, provided every whitespace character satisfies `p`. -/
theorem pyStrip_takeWhile_strip {p : Char → Bool}
    (hp : ∀ c, isPySpace c = true → p c = true) (l : List Char) :
    pyStrip ((pyStrip l).takeWhile p) = pyStrip (l.takeWhile p) := by
  have hl : l = l.takeWhile isPySpace ++ pyStripLead l :=
    (List.takeWhile_append_dropWhile (p := isPySpace) (l := l)).symm
  have hw : ∀ c ∈ l.takeWhile isPySpace, p c = true := fun c hc => hp c (tw_sat hc)
  have hws : ∀ c ∈ l.takeWhile isPySpace, isPySpace c = true := fun c hc => tw_sat hc
  have hrhs : pyStrip (l.takeWhile p) = pyStrip ((pyStripLead l).takeWhile p) := by
    conv_lhs => rw [hl]
    rw [tw_append_left hw, pyStrip_append_left_ws hws]
  rw [hrhs]
  obtain ⟨t, ht, hdec⟩ := pyStripTrail_decomp (pyStripLead l)
  have hstrip : pyStrip l = pyStripTrail (pyStripLead l) := rfl
  by_cases hcase : (pyStripTrail (pyStripLead l)).takeWhile p = pyStripTrail (pyStripLead l)
  · have hall : ∀ c ∈ pyStripTrail (pyStripLead l), p c = true := by
      intro c hc
      rw [← hcase] at hc
      exact tw_sat hc
    rw [hstrip, hcase]
    conv_rhs => rw [hdec]
    rw [tw_append_left hall, tw_all fun c hc => hp c (ht c hc),
      pyStrip_append_right_ws ht]
  · rw [hstrip]
    conv_rhs => rw [hdec]
    rw [tw_append_stop hcase]

/-! ### Lemmas about `hasTripleNL` -/

theorem hasTriple_cons_eq (a : Char) (l : List Char) :
    hasTripleNL (a :: l) = (startsNlNlNl (a :: l) || hasTripleNL l) := rfl

theorem starts_iff {l : List Char} :
    startsNlNlNl l = true ↔ ∃ rest, l = '\n' :: '\n' :: '\n' :: rest := by
  rcases l with _ | ⟨a, _ | ⟨b, _ | ⟨c, t⟩⟩⟩
  · simp [startsNlNlNl]
  · simp [startsNlNlNl]
  · simp [startsNlNlNl]
  · constructor
    · intro h
      simp only [startsNlNlNl, Bool.and_eq_true, beq_iff_eq] at h
      exact ⟨t, by rw [h.1.1, h.1.2, h.2]⟩
    · rintro ⟨rest, he⟩
      injection he with h1 he
      injection he with h2 he
      injection he with h3 _
      simp [startsNlNlNl, h1, h2, h3]

theorem starts_append {l t : List Char} (h : startsNlNlNl l = true) :
    startsNlNlNl (l ++ t) = true := by
  obtain ⟨rest, he⟩ := starts_iff.mp h
  subst he
  simp [startsNlNlNl]

theorem hasTriple_cons_of {a : Char} {l : List Char}
    (h : hasTripleNL l = true) : hasTripleNL (a :: l) = true := by
  rw [hasTriple_cons_eq, h, Bool.or_true]

theorem hasTriple_append_r {q t : List Char} (h : hasTripleNL q = true) :
    hasTripleNL (q ++ t) = true := by
  induction q with
  | nil => simp [hasTripleNL] at h
  | cons a q ih =>
    rw [hasTriple_cons_eq, Bool.or_eq_true] at h
    rw [List.cons_append, hasTriple_cons_eq, Bool.or_eq_true]
    rcases h with h | h
    · exact Or.inl (by rw [← List.cons_append]; exact starts_append h)
    · exact Or.inr (ih h)

theorem hasTriple_dropWhile {p : Char → Bool} {l : List Char}
    (h : hasTripleNL (l.dropWhile p) = true) : hasTripleNL l = true := by
  induction l with
  | nil =>
    rw [List.dropWhile_nil] at h
    exact absurd h (by decide)
  | cons a t ih =>
    rw [List.dropWhile_cons] at h
    by_cases hpa : p a = true
    · rw [if_pos hpa] at h
      exact hasTriple_cons_of (ih h)
    · rwa [if_neg (by simpa using hpa)] at h

theorem hasTriple_pyStrip {l : List Char} (h : hasTripleNL (pyStrip l) = true) :
    hasTripleNL l = true := by
  obtain ⟨t, _, hdec⟩ := pyStripTrail_decomp (pyStripLead l)
  have h1 : hasTripleNL (pyStripLead l) = true := by
    rw [hdec]
    exact hasTriple_append_r h
  exact hasTriple_dropWhile h1

/-! ### Lemmas about `stripTrailNL`, `splitlines`, `joinNL` -/

theorem stripTrailNL_eq_self {l : List Char} (h : l.getLast? ≠ some '\n') :
    stripTrailNL l = l := if_neg h

theorem mem_dropLast {α : Type} {l : List α} {c : α} (h : c ∈ l.dropLast) : c ∈ l := by
  induction l with
  | nil => simp at h
  | cons a t ih =>
    cases t with
    | nil => simp at h
    | cons b t2 =>
      rw [List.dropLast_cons₂] at h
      rcases List.mem_cons.mp h with h1 | h2
      · exact h1 ▸ List.mem_cons_self a (b :: t2)
      · exact List.mem_cons_of_mem a (ih h2)

theorem mem_stripTrailNL {l : List Char} {c : Char} (h : c ∈ stripTrailNL l) : c ∈ l := by
  unfold stripTrailNL at h
  by_cases hl : l.getLast? = some '\n'
  · rw [if_pos hl] at h
    exact mem_dropLast h
  · rwa [if_neg hl] at h

theorem stripTrailNL_pyStrip (l : List Char) : stripTrailNL (pyStrip l) = pyStrip l := by
  refine stripTrailNL_eq_self fun hl => ?_
  have := pyStrip_getLast_false hl
  simp [isPySpace] at this

theorem stripTrailNL_cons {c : Char} {cs : List Char} (h : cs ≠ []) :
    stripTrailNL (c :: cs) = c :: stripTrailNL cs := by
  rcases cs with _ | ⟨d, t⟩
  · exact absurd rfl h
  · unfold stripTrailNL
    rw [List.getLast?_cons_cons]
    by_cases hl : (d :: t).getLast? = some '\n'
    · rw [if_pos hl, if_pos hl, List.dropLast_cons₂]
    · rw [if_neg hl, if_neg hl]

theorem replaceCrLf_id : ∀ {l : List Char}, (∀ c ∈ l, c ≠ '\x0d') → replaceCrLf l = l := by
  intro l h
  induction l with
  | nil => rfl
  | cons x xs ih =>
    cases xs with
    | nil => rfl
    | cons y ys =>
      rw [replaceCrLf, if_neg fun hxy => h x (List.mem_cons_self x (y :: ys)) hxy.1]
      exact congrArg (x :: ·) (ih fun c hc => h c (List.mem_cons_of_mem x hc))

theorem mem_replaceCrLf : ∀ {l : List Char} {c : Char},
    c ∈ replaceCrLf l → c ∈ l ∨ c = '\n' := by
  intro l
  induction l using replaceCrLf.induct with
  | case1 => intro c h; exact Or.inl h
  | case2 x => intro c h; exact Or.inl h
  | case3 x y rest hxy ih =>
    intro c h
    rw [replaceCrLf, if_pos hxy] at h
    rcases List.mem_cons.mp h with h1 | h2
    · exact Or.inr h1
    · rcases ih h2 with h3 | h3
      · exact Or.inl (List.mem_cons_of_mem x (List.mem_cons_of_mem y h3))
      · exact Or.inr h3
  | case4 x y rest hxy ih =>
    intro c h
    rw [replaceCrLf, if_neg hxy] at h
    rcases List.mem_cons.mp h with h1 | h2
    · exact Or.inl (h1 ▸ List.mem_cons_self x (y :: rest))
    · rcases ih h2 with h3 | h3
      · exact Or.inl (List.mem_cons_of_mem x h3)
      · exact Or.inr h3

theorem splitlinesSimple_ne_nil {l : List Char} (hl : l ≠ []) :
    splitlinesSimple l ≠ [] := by
  cases l with
  | nil => exact absurd rfl hl
  | cons c cs =>
    rw [splitlinesSimple]
    split
    · simp
    · cases splitlinesSimple cs <;> simp [consHead]

theorem splitlinesSimple_mem : ∀ (l : List Char) {line : List Char} {c : Char},
    line ∈ splitlinesSimple l → c ∈ line → c ∈ l := by
  intro l
  induction l with
  | nil =>
    intro line c h _
    simp [splitlinesSimple] at h
  | cons a cs ih =>
    intro line c h hc
    rw [splitlinesSimple] at h
    by_cases hb : isLineBreak a = true
    · rw [if_pos hb] at h
      rcases List.mem_cons.mp h with h1 | h2
      · subst h1
        simp at hc
      · exact List.mem_cons_of_mem a (ih h2 hc)
    · rw [if_neg hb] at h
      rcases hL : splitlinesSimple cs with _ | ⟨l0, L⟩
      · rw [hL] at h
        simp only [consHead, List.mem_singleton] at h
        subst h
        have : c = a := by simpa using hc
        exact this ▸ List.mem_cons_self a cs
      · rw [hL] at h
        simp only [consHead] at h
        rcases List.mem_cons.mp h with h1 | h2
        · subst h1
          rcases List.mem_cons.mp hc with h3 | h4
          · exact h3 ▸ List.mem_cons_self a cs
          · exact List.mem_cons_of_mem a (ih (hL ▸ List.mem_cons_self l0 L) h4)
        · exact List.mem_cons_of_mem a (ih (hL ▸ List.mem_cons_of_mem l0 h2) hc)

theorem splitlines_mem {l line : List Char} {c : Char}
    (h : line ∈ splitlines l) (hc : c ∈ line) : c ∈ l ∨ c = '\n' :=
  mem_replaceCrLf (splitlinesSimple_mem (replaceCrLf l) h hc)

theorem joinNL_consHead (c : Char) (L : List (List Char)) :
    joinNL (consHead c L) = c :: joinNL L := by
  cases L with
  | nil => rfl
  | cons l0 L2 =>
    cases L2 with
    | nil => rfl
    | cons y ys => simp [consHead, joinNL, List.cons_append]

theorem slSimple_join : ∀ {l : List Char},
    (∀ c ∈ l, isLineBreak c = true → c = '\n') →
    joinNL (splitlinesSimple l) = stripTrailNL l := by
  intro l h
  induction l with
  | nil => simp [splitlinesSimple, joinNL, stripTrailNL]
  | cons c cs ih =>
    have htail : ∀ x ∈ cs, isLineBreak x = true → x = '\n' :=
      fun x hx => h x (List.mem_cons_of_mem c hx)
    rw [splitlinesSimple]
    by_cases hb : isLineBreak c = true
    · have hcn : c = '\n' := h c (List.mem_cons_self c cs) hb
      subst hcn
      rw [if_pos hb]
      by_cases hcs : cs = []
      · subst hcs
        decide
      · have hne := splitlinesSimple_ne_nil hcs
        have key : joinNL ([] :: splitlinesSimple cs)
            = '\n' :: joinNL (splitlinesSimple cs) := by
          rcases hL : splitlinesSimple cs with _ | ⟨l0, L⟩
          · exact absurd hL hne
          · simp [joinNL]
        rw [key, ih htail, stripTrailNL_cons hcs]
    · rw [if_neg hb, joinNL_consHead]
      have hcn : c ≠ '\n' := by
        intro he
        rw [he] at hb
        simp [isLineBreak] at hb
      by_cases hcs : cs = []
      · subst hcs
        rw [stripTrailNL_eq_self (by simp [hcn])]
        simp [splitlinesSimple, joinNL]
      · rw [ih htail, stripTrailNL_cons hcs]

theorem sl_join {l : List Char} (h : ∀ c ∈ l, isLineBreak c = true → c = '\n') :
    joinNL (splitlines l) = stripTrailNL l := by
  unfold splitlines
  rw [replaceCrLf_id fun c hc he => by
    have := h c hc (by rw [he]; decide)
    rw [he] at this
    exact absurd this (by decide)]
  exact slSimple_join h

/-! ### Lemmas about `collapseNLF` -/

theorem tw_replicate (l : List Char) (c : Char) :
    l.takeWhile (fun x => x == c)
      = List.replicate (l.takeWhile (fun x => x == c)).length c := by
  induction l with
  | nil => rfl
  | cons a t ih =>
    rw [List.takeWhile_cons]
    by_cases h : (a == c) = true
    · rw [if_pos h, List.length_cons, List.replicate_succ, beq_iff_eq.mp h]
      exact congrArg (c :: ·) ih
    · rw [if_neg (by simpa using h)]
      rfl

theorem tw_two {p : Char → Bool} {cs : List Char}
    (h : 2 ≤ (cs.takeWhile p).length) :
    ∃ b c t, cs = b :: c :: t ∧ p b = true ∧ p c = true := by
  cases cs with
  | nil => simp at h
  | cons b t =>
    rw [List.takeWhile_cons] at h
    by_cases hb : p b = true
    · rw [if_pos hb] at h
      cases t with
      | nil => simp at h
      | cons c t2 =>
        rw [List.takeWhile_cons] at h
        by_cases hc : p c = true
        · exact ⟨b, c, t2, rfl, hb, hc⟩
        · rw [if_neg (by simpa using hc)] at h
          simp at h
    · rw [if_neg (by simpa using hb)] at h
      simp at h

theorem collapse_headq : ∀ (fuel : Nat) (l : List Char),
    (collapseNLF fuel l).head? = l.head? := by
  intro fuel l
  cases fuel with
  | zero => rfl
  | succ n =>
    cases l with
    | nil => rfl
    | cons c cs =>
      simp only [collapseNLF]
      by_cases hc : c = '\n'
      · rw [if_pos hc]
        by_cases h3 : 3 ≤ 1 + (cs.takeWhile (fun x => x == '\n')).length
        · rw [if_pos h3]
          simp [hc]
        · rw [if_neg h3, Nat.add_comm 1, List.replicate_succ]
          simp [hc]
      · rw [if_neg hc]
        rfl

theorem noTriple_pad {Y : List Char} (hY : hasTripleNL Y = false)
    (hYh : ∀ d, Y.head? = some d → (d == '\n') = false) :
    hasTripleNL ('\n' :: Y) = false ∧ hasTripleNL ('\n' :: '\n' :: Y) = false := by
  have hs1 : startsNlNlNl ('\n' :: Y) = false := by
    by_contra hb
    rw [Bool.not_eq_false] at hb
    obtain ⟨rest, he⟩ := starts_iff.mp hb
    injection he with _ he
    have : Y.head? = some '\n' := by rw [he]; rfl
    simpa using hYh '\n' this
  have hs2 : startsNlNlNl ('\n' :: '\n' :: Y) = false := by
    by_contra hb
    rw [Bool.not_eq_false] at hb
    obtain ⟨rest, he⟩ := starts_iff.mp hb
    injection he with _ he
    injection he with _ he
    have : Y.head? = some '\n' := by rw [he]; rfl
    simpa using hYh '\n' this
  refine ⟨?_, ?_⟩
  · rw [hasTriple_cons_eq, hs1, hY]
    rfl
  · rw [hasTriple_cons_eq, hs2, hasTriple_cons_eq, hs1, hY]
    rfl

theorem collapse_noTriple : ∀ (fuel : Nat) (l : List Char), l.length ≤ fuel →
    hasTripleNL (collapseNLF fuel l) = false := by
  intro fuel
  induction fuel with
  | zero =>
    intro l hl
    rw [List.length_eq_zero.mp (Nat.le_zero.mp hl)]
    rfl
  | succ n ih =>
    intro l hl
    cases l with
    | nil => rfl
    | cons c cs =>
      have hcs : cs.length ≤ n := by
        rw [List.length_cons] at hl
        omega
      simp only [collapseNLF]
      by_cases hc : c = '\n'
      · rw [if_pos hc]
        have hrl : (cs.dropWhile (fun x => x == '\n')).length ≤ n :=
          Nat.le_trans (dw_length_le cs) hcs
        have hY := ih _ hrl
        have hYh : ∀ d, (collapseNLF n (cs.dropWhile (fun x => x == '\n'))).head?
            = some d → (d == '\n') = false := by
          intro d hd
          rw [collapse_headq] at hd
          exact dw_head_false (p := fun x => x == '\n') hd
        have hp := noTriple_pad hY hYh
        by_cases h3 : 3 ≤ 1 + (cs.takeWhile (fun x => x == '\n')).length
        · rw [if_pos h3]
          exact hp.2
        · rw [if_neg h3]
          have hk : (cs.takeWhile (fun x => x == '\n')).length ≤ 1 := by omega
          rcases Nat.le_one_iff_eq_zero_or_eq_one.mp hk with h0 | h1
          · rw [h0]
            exact hp.1
          · rw [h1]
            exact hp.2
      · rw [if_neg hc]
        have hst : startsNlNlNl (c :: collapseNLF n cs) = false := by
          by_contra hb
          rw [Bool.not_eq_false] at hb
          obtain ⟨rest, he⟩ := starts_iff.mp hb
          injection he with h1 _
          exact hc h1
        rw [hasTriple_cons_eq, hst, ih cs hcs]
        rfl

theorem collapse_id : ∀ (fuel : Nat) (l : List Char),
    hasTripleNL l = false → collapseNLF fuel l = l := by
  intro fuel
  induction fuel with
  | zero =>
    intro l _
    rfl
  | succ n ih =>
    intro l h
    cases l with
    | nil => rfl
    | cons c cs =>
      have hcs : hasTripleNL cs = false := by
        rw [hasTriple_cons_eq, Bool.or_eq_false_iff] at h
        exact h.2
      simp only [collapseNLF]
      by_cases hc : c = '\n'
      · rw [if_pos hc]
        subst hc
        have hk : (cs.takeWhile (fun x => x == '\n')).length ≤ 1 := by
          by_contra hgt
          have h2 : 2 ≤ (cs.takeWhile (fun x => x == '\n')).length := by omega
          obtain ⟨b, d, t, hcs2, hb, hd⟩ := tw_two h2
          rw [hcs2] at h
          have : startsNlNlNl ('\n' :: b :: d :: t) = true := by
            simp [startsNlNlNl, beq_iff_eq.mp hb, beq_iff_eq.mp hd]
          rw [hasTriple_cons_eq, this] at h
          simp at h
        rw [if_neg (by omega)]
        have hrest : hasTripleNL (cs.dropWhile (fun x => x == '\n')) = false := by
          by_contra hb
          rw [Bool.not_eq_false] at hb
          rw [hasTriple_dropWhile hb] at hcs
          exact absurd hcs (by simp)
        rw [ih _ hrest, Nat.add_comm 1, List.replicate_succ]
        have : List.replicate (cs.takeWhile (fun x => x == '\n')).length '\n'
            = cs.takeWhile (fun x => x == '\n') := (tw_replicate cs '\n').symm
        rw [this, List.cons_append, List.takeWhile_append_dropWhile]
      · rw [if_neg hc]
        exact congrArg (c :: ·) (ih cs hcs)

theorem collapse_mem : ∀ (fuel : Nat) (l : List Char) (c : Char),
    c ∈ collapseNLF fuel l → c ∈ l ∨ c = '\n' := by
  intro fuel
  induction fuel with
  | zero =>
    intro l c h
    exact Or.inl h
  | succ n ih =>
    intro l c h
    cases l with
    | nil => simp [collapseNLF] at h
    | cons a cs =>
      simp only [collapseNLF] at h
      by_cases ha : a = '\n'
      · rw [if_pos ha] at h
        rcases List.mem_append.mp h with h1 | h2
        · right
          by_cases h3 : 3 ≤ 1 + (cs.takeWhile (fun x => x == '\n')).length
          · rw [if_pos h3] at h1
            rcases List.mem_cons.mp h1 with h4 | h4
            · exact h4
            · simpa using h4
          · rw [if_neg h3] at h1
            exact List.eq_of_mem_replicate h1
        · rcases ih _ c h2 with h4 | h4
          · exact Or.inl (List.mem_cons_of_mem a (mem_dw h4))
          · exact Or.inr h4
      · rw [if_neg ha] at h
        rcases List.mem_cons.mp h with h1 | h2
        · exact Or.inl (h1 ▸ List.mem_cons_self a cs)
        · rcases ih cs c h2 with h4 | h4
          · exact Or.inl (List.mem_cons_of_mem a h4)
          · exact Or.inr h4

/-! ### Identity of the cleaning steps on tame strings -/

theorem tame_parts {s : List Char} (h : tameB s = true) :
    (∀ c ∈ s, c ≠ btick) ∧ (∀ c ∈ s, c ≠ '*') ∧ (∀ c ∈ s, c ≠ '_') ∧
    (∀ c ∈ s, c ≠ '[') ∧ (∀ c ∈ s, isBullet c = false) ∧
    (∀ c ∈ s, isLineBreak c = true → c = '\n') := by
  have hm : ∀ c ∈ s, mdActive c = false := by
    intro c hc
    have := List.all_eq_true.mp h c hc
    simpa using this
  refine ⟨fun c hc he => ?_, fun c hc he => ?_, fun c hc he => ?_,
    fun c hc he => ?_, fun c hc => ?_, fun c hc hlb => ?_⟩
  · have := hm c hc
    rw [he] at this
    exact absurd this (by decide)
  · have := hm c hc
    rw [he] at this
    exact absurd this (by decide)
  · have := hm c hc
    rw [he] at this
    exact absurd this (by decide)
  · have := hm c hc
    rw [he] at this
    exact absurd this (by decide)
  · by_contra hb
    rw [Bool.not_eq_false] at hb
    have := hm c hc
    rw [mdActive, hb] at this
    simp at this
  · by_contra hne
    have := hm c hc
    rw [mdActive, hlb, beq_eq_false_iff_ne.mpr hne] at this
    simp at this

theorem isFenceStart_false {l : List Char} (h : ∀ c ∈ l, c ≠ btick) :
    isFenceStart l = false := by
  rcases l with _ | ⟨a, _ | ⟨b, _ | ⟨c, t⟩⟩⟩
  · rfl
  · rfl
  · rfl
  · show (a == btick && b == btick && c == btick) = false
    rw [beq_eq_false_iff_ne.mpr (h a (List.mem_cons_self a _))]
    rfl

theorem removeCodeFencesF_id : ∀ (fuel : Nat) {l : List Char},
    (∀ c ∈ l, c ≠ btick) → removeCodeFencesF fuel l = l := by
  intro fuel
  induction fuel with
  | zero => intro l _; rfl
  | succ n ih =>
    intro l h
    cases l with
    | nil => rfl
    | cons c cs =>
      simp only [removeCodeFencesF]
      rw [if_neg (by rw [isFenceStart_false h]; simp)]
      exact congrArg (c :: ·) (ih fun x hx => h x (List.mem_cons_of_mem c hx))

theorem matchImage_none {l : List Char} (h : ∀ c ∈ l, c ≠ '[') :
    matchImage l = none := by
  rcases l with _ | ⟨a, _ | ⟨b, cs⟩⟩
  · rfl
  · rfl
  · have hb : ¬(a = '!' ∧ b = '[') :=
      fun hab => h b (List.mem_cons_of_mem a (List.mem_cons_self b cs)) hab.2
    simp only [matchImage]
    rw [if_neg hb]

theorem substImagesF_id : ∀ (fuel : Nat) {l : List Char},
    (∀ c ∈ l, c ≠ '[') → substImagesF fuel l = l := by
  intro fuel
  induction fuel with
  | zero => intro l _; rfl
  | succ n ih =>
    intro l h
    cases l with
    | nil => rfl
    | cons c cs =>
      simp only [substImagesF, matchImage_none h]
      exact congrArg (c :: ·) (ih fun x hx => h x (List.mem_cons_of_mem c hx))

theorem matchLink_none {l : List Char} (h : ∀ c ∈ l, c ≠ '[') :
    matchLink l = none := by
  rcases l with _ | ⟨a, cs⟩
  · rfl
  · simp only [matchLink]
    rw [if_neg (h a (List.mem_cons_self a cs))]

theorem substLinksF_id : ∀ (fuel : Nat) {l : List Char},
    (∀ c ∈ l, c ≠ '[') → substLinksF fuel l = l := by
  intro fuel
  induction fuel with
  | zero => intro l _; rfl
  | succ n ih =>
    intro l h
    cases l with
    | nil => rfl
    | cons c cs =>
      simp only [substLinksF, matchLink_none h]
      exact congrArg (c :: ·) (ih fun x hx => h x (List.mem_cons_of_mem c hx))

theorem replacePair_id (a b : Char) : ∀ {l : List Char},
    (∀ c ∈ l, c ≠ a) → replacePair a b l = l := by
  intro l
  induction l with
  | nil => intro _; rfl
  | cons x xs ih =>
    intro h
    cases xs with
    | nil => rfl
    | cons y ys =>
      rw [replacePair, if_neg fun hab => h x (List.mem_cons_self x (y :: ys)) hab.1]
      exact congrArg (x :: ·) (ih fun c hc => h c (List.mem_cons_of_mem x hc))

theorem removeChar_id {x : Char} {l : List Char} (h : ∀ c ∈ l, c ≠ x) :
    removeChar x l = l := by
  unfold removeChar
  exact List.filter_eq_self.mpr fun c hc => by simpa using h c hc

theorem stripBullet_id {line : List Char} (h : ∀ c ∈ line, isBullet c = false) :
    stripBullet line = line := by
  unfold stripBullet
  rcases hd : line.dropWhile isPySpace with _ | ⟨b, _ | ⟨d, rest⟩⟩
  · rfl
  · rfl
  · have hb : isBullet b = false :=
      h b (mem_dw (by rw [hd]; exact List.mem_cons_self b (d :: rest)))
    show (if isBullet b && isPySpace d
      then (d :: rest).dropWhile isPySpace else line) = line
    rw [hb]
    rfl

/-- On a tame string, `clean_markdown` reduces to: remove one trailing
newline (the splitlines/join round trip), collapse blank-line runs, strip. -/
theorem clean_markdown_tame_eq {s : List Char} (h : tameB s = true) :
    clean_markdown s = pyStrip (collapseNL (stripTrailNL s)) := by
  obtain ⟨hbt, hst, hun, hbr, hbu, hlb⟩ := tame_parts h
  by_cases hs : s = []
  · subst hs
    decide
  · simp only [clean_markdown]
    rw [if_neg hs]
    rw [show removeCodeFences s = s from removeCodeFencesF_id s.length hbt]
    rw [show substImages s = s from substImagesF_id s.length hbr]
    rw [show substLinks s = s from substLinksF_id s.length hbr]
    rw [replacePair_id '*' '*' hst, replacePair_id '_' '_' hun]
    rw [removeChar_id hbt, removeChar_id hst, removeChar_id hun]
    have hmap : (splitlines s).map stripBullet = splitlines s := by
      have hid : ∀ line ∈ splitlines s, stripBullet line = line := by
        intro line hl
        refine stripBullet_id fun c hc => ?_
        rcases splitlines_mem hl hc with h1 | h1
        · exact hbu c h1
        · rw [h1]
          rfl
      rw [List.map_congr_left hid]
      exact List.map_id' (splitlines s)
    rw [hmap, sl_join hlb]

theorem tame_clean {s : List Char} (h : tameB s = true) :
    tameB (clean_markdown s) = true := by
  have hall : ∀ c ∈ s, (!(mdActive c)) = true := List.all_eq_true.mp h
  rw [clean_markdown_tame_eq h, tameB, List.all_eq_true]
  intro c hc
  have hc1 := mem_pyStrip hc
  rcases collapse_mem _ _ _ hc1 with h2 | h2
  · exact hall c (mem_stripTrailNL h2)
  · rw [h2]
    rfl

theorem clean_noTriple {s : List Char} (h : tameB s = true) :
    hasTripleNL (clean_markdown s) = false := by
  rw [clean_markdown_tame_eq h]
  by_contra hb
  rw [Bool.not_eq_false] at hb
  have h1 := hasTriple_pyStrip hb
  have h2 : hasTripleNL (collapseNL (stripTrailNL s)) = false :=
    collapse_noTriple _ _ (Nat.le_refl _)
  rw [h1] at h2
  exact absurd h2 (by simp)

/-! ### Lemmas about the per-user index store -/

theorem dictGet_dictSet_self {α : Type} (store : List (Nat × α)) (k : Nat) (v : α) :
    dictGet (dictSet store k v) k = some v := by
  induction store with
  | nil => simp [dictSet, dictGet, List.find?]
  | cons p ps ih =>
    rw [dictSet]
    by_cases hp : p.1 = k
    · rw [if_pos hp]
      simp [dictGet, List.find?]
    · rw [if_neg hp]
      unfold dictGet at ih ⊢
      rw [List.find?_cons_of_neg _ (by simpa using hp)]
      exact ih

theorem dictGet_dictSet_other {α : Type} (store : List (Nat × α)) (k j : Nat)
    (v : α) (h : j ≠ k) : dictGet (dictSet store k v) j = dictGet store j := by
  have hkj : ((k : Nat) == j) = false := beq_eq_false_iff_ne.mpr fun he => h he.symm
  induction store with
  | nil =>
    show dictGet [(k, v)] j = dictGet [] j
    unfold dictGet
    rw [List.find?_cons_of_neg _ (by simpa using hkj)]
  | cons p ps ih =>
    rw [dictSet]
    by_cases hp : p.1 = k
    · rw [if_pos hp]
      unfold dictGet
      rw [List.find?_cons_of_neg _ (by simpa using hkj),
        List.find?_cons_of_neg _ (by simp [hp]; simpa using hkj)]
    · rw [if_neg hp]
      unfold dictGet at ih ⊢
      by_cases hj : p.1 = j
      · rw [List.find?_cons_of_pos _ (by simpa using hj),
          List.find?_cons_of_pos _ (by simpa using hj)]
      · rw [List.find?_cons_of_neg _ (by simpa using hj),
          List.find?_cons_of_neg _ (by simpa using hj)]
        exact ih

theorem mem_keys_dictSet {α : Type} {store : List (Nat × α)} {k j : Nat} {v : α}
    (h : j ∈ (dictSet store k v).map Prod.fst) :
    j ∈ store.map Prod.fst ∨ j = k := by
  induction store with
  | nil =>
    simp [dictSet] at h
    exact Or.inr h
  | cons p ps ih =>
    rw [dictSet] at h
    by_cases hp : p.1 = k
    · rw [if_pos hp] at h
      rcases List.mem_cons.mp h with h1 | h1
      · exact Or.inr h1
      · exact Or.inl (List.mem_cons_of_mem _ h1)
    · rw [if_neg hp, List.map_cons] at h
      rcases List.mem_cons.mp h with h1 | h1
      · exact Or.inl (h1 ▸ List.mem_cons_self _ _)
      · rcases ih h1 with h2 | h2
        · exact Or.inl (List.mem_cons_of_mem _ h2)
        · exact Or.inr h2

theorem dictSet_keys_nodup {α : Type} {store : List (Nat × α)} {k : Nat} {v : α}
    (h : (store.map Prod.fst).Nodup) :
    ((dictSet store k v).map Prod.fst).Nodup := by
  induction store with
  | nil => simp [dictSet]
  | cons p ps ih =>
    rw [List.map_cons, List.nodup_cons] at h
    rw [dictSet]
    by_cases hp : p.1 = k
    · rw [if_pos hp, List.map_cons, List.nodup_cons]
      exact ⟨hp ▸ h.1, h.2⟩
    · rw [if_neg hp, List.map_cons, List.nodup_cons]
      refine ⟨fun hm => ?_, ih h.2⟩
      rcases mem_keys_dictSet hm with h1 | h1
      · exact h.1 h1
      · exact hp h1

/-! ### Claim theorems: the `/api/ask` pipeline -/

/-- Claim C1: for every question accepted by `/api/ask` (non-empty after
trimming), the returned heading is the substring of the question before its
first question mark, trimmed; the whole trimmed question when there is no
question mark; and the literal `"Answer"` when that substring is empty.
(The concrete instance for "What is DNA? Explain." is the witness.) -/
theorem ask_heading_matches_spec (q : List Char) (langField : Option (List Char))
    (outcome : ModelOutcome) (persistOk : Bool) (uid : Option Nat)
    (db : List QuestionRow) (now : Nat)
    (hq : (pyStrip q).isEmpty = false) :
    (askRoute (some q) langField outcome persistOk uid db now).1.heading
      = some (headingSpec q) := by
  have hne : pyStrip q ≠ [] := by
    intro h
    rw [h] at hq
    simp at hq
  have key : pyStrip ((pyStrip q).takeWhile (fun c => c != '?'))
      = pyStrip (q.takeWhile (fun c => c != '?')) := by
    refine pyStrip_takeWhile_strip (fun c hc => ?_) q
    have : c ≠ '?' := by
      intro h
      rw [h] at hc
      simp [isPySpace] at hc
    simpa using this
  simp only [askRoute, Option.getD_some, if_neg hne]
  unfold headingSpec
  by_cases hq2 : '?' ∈ q
  · simp only [if_pos hq2, key]
  · simp only [if_neg hq2]
    have hall : q.takeWhile (fun c => c != '?') = q := by
      refine tw_all fun c hc => ?_
      have : c ≠ '?' := fun h => hq2 (h ▸ hc)
      simpa using this
    simp only [key, hall]

/-- Witness for C1, at the question from the specification's example. -/
theorem ask_heading_matches_spec_witness :
    (pyStrip ("What is DNA? Explain.".data)).isEmpty = false ∧
    (askRoute (some ("What is DNA? Explain.".data)) none .transportFailure true
        none [] 0).1.heading = some ("What is DNA".data) := by
  refine ⟨by decide, ?_⟩
  rw [ask_heading_matches_spec ("What is DNA? Explain.".data) none .transportFailure
    true none [] 0 (by decide)]
  decide

/-- Claim C4: a POST to `/api/ask` whose question is absent, empty or
whitespace-only yields status 400 with a message field, calls no model
backend, and leaves the questions table unchanged. -/
theorem ask_empty_question_rejected (questionField langField : Option (List Char))
    (outcome : ModelOutcome) (persistOk : Bool) (uid : Option Nat)
    (db : List QuestionRow) (now : Nat)
    (h : pyStrip (questionField.getD []) = []) :
    (askRoute questionField langField outcome persistOk uid db now).1.status = 400 ∧
    (askRoute questionField langField outcome persistOk uid db now).1.message
      = some ("No question provided.".data) ∧
    (askRoute questionField langField outcome persistOk uid db now).2.1 = db ∧
    (askRoute questionField langField outcome persistOk uid db now).2.2 = false := by
  simp [askRoute, h]

/-- Witness for C4, at a whitespace-only question. -/
theorem ask_empty_question_rejected_witness :
    pyStrip ((some ("   ".data)).getD []) = [] ∧
    (askRoute (some ("   ".data)) (some ("hi".data)) (.success (some ("a".data)))
        true (some 1) [] 7).1.status = 400 ∧
    (askRoute (some ("   ".data)) (some ("hi".data)) (.success (some ("a".data)))
        true (some 1) [] 7).1.message = some ("No question provided.".data) ∧
    (askRoute (some ("   ".data)) (some ("hi".data)) (.success (some ("a".data)))
        true (some 1) [] 7).2.1 = [] ∧
    (askRoute (some ("   ".data)) (some ("hi".data)) (.success (some ("a".data)))
        true (some 1) [] 7).2.2 = false := by
  have h := ask_empty_question_rejected (some ("   ".data)) (some ("hi".data))
    (.success (some ("a".data))) true (some 1) [] 7 (by decide)
  exact ⟨by decide, h.1, h.2.1, h.2.2.1, h.2.2.2⟩

/-- Claim C5: `ask_ollama` converts every transport or decoding failure into
the fixed sentinel string (raising nothing to its caller, since it is a
total function), and a failure to persist the question/answer pair is
swallowed: the successful answer is returned unchanged and the table is
simply left as it was. -/
theorem ask_ollama_failure_behavior :
    (∀ (persistOk : Bool) (uid : Option Nat) (q : List Char)
        (db : List QuestionRow) (now : Nat),
      ask_ollama .transportFailure persistOk uid q db now = (sentinelAnswer, db)) ∧
    (∀ (resp : Option (List Char)) (uid : Option Nat) (q : List Char)
        (db : List QuestionRow) (now : Nat),
      ask_ollama (.success resp) false uid q db now
        = (resp.getD noResponseDefault, db)) := by
  constructor
  · intro persistOk uid q db now
    rfl
  · intro resp uid q db now
    cases uid <;> rfl

/-- Claim C9: on the raw answer `"**Bold** and _em_\n\n\n\nNext"` the
formatter body (markdown cleaning of the stripped raw answer, exactly as
the `/api/ask` handler computes it) is `"Bold and em\n\nNext"`. -/
theorem formatter_concrete_example :
    clean_markdown (pyStrip ("**Bold** and _em_\n\n\n\nNext".data))
      = "Bold and em\n\nNext".data := by
  decide

/-- Claim C10: the `/api/ask` response does not depend on the request's
`lang` field — the handler reads it but never uses it, so two requests
differing only in `lang` produce identical results (same heading, body,
table state, and model-call behaviour). -/
theorem ask_lang_independent (questionField lang1 lang2 : Option (List Char))
    (outcome : ModelOutcome) (persistOk : Bool) (uid : Option Nat)
    (db : List QuestionRow) (now : Nat) :
    askRoute questionField lang1 outcome persistOk uid db now
      = askRoute questionField lang2 outcome persistOk uid db now := rfl

/-- Claim C2, counterexample: `clean_markdown` is not idempotent. On
`"- - x"` one pass strips a single leading bullet, leaving `"- x"`, and a
second pass strips again, producing `"x"`. -/
theorem clean_markdown_not_idempotent :
    clean_markdown ("- - x".data) = "- x".data ∧
    clean_markdown (clean_markdown ("- - x".data)) = "x".data ∧
    decide (clean_markdown (clean_markdown ("- - x".data))
      = clean_markdown ("- - x".data)) = false := by
  refine ⟨by decide, by decide, by decide⟩

/-- Claim C2 (amended): the markdown-cleaning transform is idempotent on
every string free of markdown-active characters — no backtick, asterisk,
underscore, opening bracket, bullet glyph (hyphen, U+2022, U+25CF, U+25E6,
U+2043), and no line boundary other than a plain newline. (On general
strings a second pass can strip further, e.g. nested bullets `"- - x"` or a
link pattern uncovered by marker removal.) -/
theorem clean_markdown_idempotent_on_tame {s : List Char} (h : tameB s = true) :
    clean_markdown (clean_markdown s) = clean_markdown s := by
  have ht := tame_clean h
  rw [clean_markdown_tame_eq ht]
  have e1 : stripTrailNL (clean_markdown s) = clean_markdown s := by
    rw [clean_markdown_tame_eq h]
    exact stripTrailNL_pyStrip _
  rw [e1]
  have e2 : collapseNL (clean_markdown s) = clean_markdown s :=
    collapse_id _ _ (clean_noTriple h)
  rw [e2]
  rw [clean_markdown_tame_eq h]
  exact pyStrip_idem _

/-- Witness for the amended C2, at a tame multi-line string. -/
theorem clean_markdown_idempotent_on_tame_witness :
    tameB ("Hello\n\n\n\nscience world ".data) = true ∧
    clean_markdown (clean_markdown ("Hello\n\n\n\nscience world ".data))
      = clean_markdown ("Hello\n\n\n\nscience world ".data) :=
  ⟨by decide, clean_markdown_idempotent_on_tame (by decide)⟩

/-! ### Claim theorems: error handling of the other routes -/

/-- Claim C3, counterexample: in `/api/ocr` the uploaded file is decoded by
`Image.open` before the `try` block, so a file that cannot be decoded as an
image (here raising "cannot identify image file") escapes the handler as an
unhandled fault instead of a JSON error body. -/
theorem ocr_decode_failure_unhandled :
    ocr_question true (.error ("cannot identify image file".data)) (.ok [])
      = .unhandled ("cannot identify image file".data) ∧
    handledToJson (ocr_question true
      (.error ("cannot identify image file".data)) (.ok [])) = false :=
  ⟨rfl, rfl⟩

/-- Claim C3 (amended): failures raised inside the route handlers' `try`
blocks are caught and converted to JSON bodies — every `/api/upload_pdf`
outcome is a JSON response, and so is every `/api/ocr` outcome whose image
did decode; but image decoding itself happens before the `try`, so it is
not covered (see the counterexample). -/
theorem route_errors_caught_inside_try :
    (∀ (store : List (Nat × List (List Char))) (uid : Nat) (present : Bool)
        (loadResult : Except (List Char) (List (List Char)))
        (splitChunks : List (List Char) → List (List Char))
        (embedResult : Except (List Char) Unit),
      handledToJson
        (upload_pdf store uid present loadResult splitChunks embedResult).1 = true) ∧
    (∀ (present : Bool) (ocrResult : Except (List Char) (List Char)),
      handledToJson (ocr_question present (.ok ()) ocrResult) = true) := by
  constructor
  · intro store uid present loadResult splitChunks embedResult
    cases present with
    | false => rfl
    | true =>
      cases loadResult with
      | error e => rfl
      | ok docs =>
        by_cases hd : docs = []
        · simp [upload_pdf, hd, handledToJson]
        · cases embedResult with
          | error e => simp [upload_pdf, hd, handledToJson]
          | ok u => simp [upload_pdf, hd, handledToJson]
  · intro present ocrResult
    cases present with
    | false => rfl
    | true => cases ocrResult <;> rfl

/-- Claim C6, counterexample: a TTS synthesis failure whose underlying
exception message is "gTTS boom" yields the fixed JSON error body
"TTS failed" — the raw exception message does not occur in that body, so
TTS failures do not echo the raw message the way PDF and OCR failures do. -/
theorem tts_error_not_raw_message :
    text_to_speech (some ("hello".data)) none (.error ("gTTS boom".data))
      = ⟨500, none, none, none, some ("TTS failed".data)⟩ ∧
    occursIn ("gTTS boom".data) ("TTS failed".data) = false :=
  ⟨by decide, by decide⟩

/-- Claim C6 (amended): every TTS synthesis failure on a non-empty text is
reported as status 500 with the fixed error body "TTS failed", independent
of the underlying exception message; the raw message is never echoed —
unlike OCR failures, which return `str(e)` itself. -/
theorem tts_failure_fixed_message (textField langField : Option (List Char))
    (msg : List Char) (h : (textField.getD []).isEmpty = false) :
    text_to_speech textField langField (.error msg)
      = ⟨500, none, none, none, some ("TTS failed".data)⟩ ∧
    (∀ e, ocr_question true (.ok ()) (.error e) = .jsonError 500 e) := by
  constructor
  · simp only [text_to_speech]
    rw [if_neg fun he => by rw [he] at h; simp at h]
    rfl
  · intro e
    rfl

/-- Witness for the amended C6. -/
theorem tts_failure_fixed_message_witness :
    ((some ("hi there".data)).getD []).isEmpty = false ∧
    text_to_speech (some ("hi there".data)) (some ("hi".data))
        (.error ("boom".data))
      = ⟨500, none, none, none, some ("TTS failed".data)⟩ :=
  ⟨by decide, (tts_failure_fixed_message (some ("hi there".data))
    (some ("hi".data)) ("boom".data) (by decide)).1⟩

/-! ### Claim theorems: `/history` and the per-user index store -/

/-- Claim C7, counterexample: the listing is not strictly descending by
creation timestamp — two records sharing a timestamp appear consecutively,
so the strict-descent predicate fails on a non-privileged caller's view. -/
theorem history_not_strictly_descending :
    history [⟨1, "alice".data⟩]
        [⟨1, "q1".data, "a1".data, 5⟩, ⟨1, "q2".data, "a2".data, 5⟩]
        1 ("alice".data)
      = .userView [("q1".data, "a1".data, 5), ("q2".data, "a2".data, 5)] ∧
    strictDescBy (fun r => r.2.2)
      [(("q1".data : List Char), ("a1".data : List Char), (5 : Nat)),
       ("q2".data, "a2".data, 5)] = false :=
  ⟨by decide, by decide⟩

/-- Claim C7 (amended): a caller whose handle is not the privileged name
`admin` is shown exactly their own question records, and a caller with that
handle is shown every record joined with its owner's handle; both listings
are ordered by non-increasing creation timestamp (strictly descending only
when the timestamps are distinct — ties make the order non-strict). -/
theorem history_access_and_ordering (users : List UserRow) (qs : List QuestionRow)
    (callerId : Nat) (callerName : List Char) :
    (callerName ≠ "admin".data →
      history users qs callerId callerName
          = .userView (List.insertionSort tsDescU (ownRows qs callerId)) ∧
        (List.insertionSort tsDescU (ownRows qs callerId)).Perm
          (ownRows qs callerId) ∧
        (List.insertionSort tsDescU (ownRows qs callerId)).Sorted tsDescU) ∧
    (callerName = "admin".data →
      history users qs callerId callerName
          = .adminView (List.insertionSort tsDescA (adminRows users qs)) ∧
        (List.insertionSort tsDescA (adminRows users qs)).Perm
          (adminRows users qs) ∧
        (List.insertionSort tsDescA (adminRows users qs)).Sorted tsDescA) := by
  constructor
  · intro hne
    refine ⟨?_, List.perm_insertionSort _ _, List.sorted_insertionSort _ _⟩
    unfold history
    rw [if_neg hne]
  · intro heq
    refine ⟨?_, List.perm_insertionSort _ _, List.sorted_insertionSort _ _⟩
    unfold history
    rw [if_pos heq]

/-- Witness for the amended C7, at a non-privileged caller. -/
theorem history_access_and_ordering_witness :
    ("alice".data : List Char) ≠ "admin".data ∧
    history [⟨1, "alice".data⟩] [⟨1, "q".data, "a".data, 3⟩] 1 ("alice".data)
      = .userView [("q".data, "a".data, 3)] := by
  have h := (history_access_and_ordering [⟨1, "alice".data⟩]
    [⟨1, "q".data, "a".data, 3⟩] 1 ("alice".data)).1 (by decide)
  refine ⟨by decide, ?_⟩
  rw [h.1]
  decide

/-- Claim C8: a successful PDF upload stores, under the uploader's key
alone, exactly the index built from the new document's chunks — replacing
any previous index outright (the stored value does not depend on the prior
store), leaving every other user's entry untouched, and preserving
one-index-per-user (key uniqueness) in the store. -/
theorem upload_replaces_user_index (store : List (Nat × List (List Char)))
    (uid : Nat) (docs : List (List Char))
    (splitChunks : List (List Char) → List (List Char))
    (hdocs : docs ≠ []) :
    (upload_pdf store uid true (.ok docs) splitChunks (.ok ())).1
        = .ok ("PDF uploaded and processed successfully.".data) ∧
    dictGet (upload_pdf store uid true (.ok docs) splitChunks (.ok ())).2 uid
        = some (splitChunks docs) ∧
    (∀ k, k ≠ uid →
      dictGet (upload_pdf store uid true (.ok docs) splitChunks (.ok ())).2 k
        = dictGet store k) ∧
    ((store.map Prod.fst).Nodup →
      ((upload_pdf store uid true (.ok docs) splitChunks (.ok ())).2.map
        Prod.fst).Nodup) := by
  have hred : upload_pdf store uid true (.ok docs) splitChunks (.ok ())
      = (.ok ("PDF uploaded and processed successfully.".data),
         dictSet store uid (splitChunks docs)) := by
    simp [upload_pdf, hdocs]
  rw [hred]
  exact ⟨rfl, dictGet_dictSet_self store uid (splitChunks docs),
    fun k hk => dictGet_dictSet_other store uid k (splitChunks docs) hk,
    fun hn => dictSet_keys_nodup hn⟩

/-- Witness for C8: a re-upload for user 1 replaces the old single-chunk
index with the new document's chunks; user 2's index is untouched. -/
theorem upload_replaces_user_index_witness :
    (["new page".data] : List (List Char)) ≠ [] ∧
    dictGet (upload_pdf [(1, ["old chunk".data]), (2, ["other".data])] 1 true
      (.ok ["new page".data]) (fun docs => docs) (.ok ())).2 1
      = some (["new page".data]) ∧
    dictGet (upload_pdf [(1, ["old chunk".data]), (2, ["other".data])] 1 true
      (.ok ["new page".data]) (fun docs => docs) (.ok ())).2 2
      = some (["other".data]) := by
  have h := upload_replaces_user_index [(1, ["old chunk".data]), (2, ["other".data])]
    1 (["new page".data]) (fun docs => docs) (by decide)
  refine ⟨by decide, h.2.1, ?_⟩
  rw [h.2.2.1 2 (by decide)]
  decide

end QaBot
